import Mathlib

/-
Verification of the ai.archives core: a shallow embedding of the content
sanitizer, the archive store (file resolution / rotation and Add), the
retrieval engine (tokenization, whole-word scoring, two-phase search) and
the rule store (single-document upsert and parsing).

Strings are modelled as `List Char` (Python `str`, ASCII fragment: Python's
`str.lower`, `str.isalnum` and the regex classes `\w`, `\s`, `\d` are
modelled by their ASCII behaviour, which covers every string manipulated by
the embedded code paths).  Regex substitutions (`re.sub` with the concrete
patterns of the source) are embedded as single left-to-right scans: each
scanner tries its pattern at the current position, replaces the (always
non-empty) match and resumes after it, exactly as `re.sub` does for these
patterns; the scans are written with an explicit fuel equal to the input
length so that every definition is structurally recursive and computable
by the kernel.
-/

/-- ASCII model of Python `str.lower` applied per character. -/
def pyToLower (c : Char) : Char := c.toLower

/-- ASCII model of Python `str.isalnum` / the regex class `[0-9a-zA-Z]`
(note: the underscore is *not* alphanumeric in Python). -/
def pyIsAlnum (c : Char) : Bool := c.isAlphanum

/-- ASCII model of the Python regex class `\s`. -/
def pyIsSpace (c : Char) : Bool :=
  c == ' ' || c == '\t' || c == '\n' || c == '\r' || c == '\x0b' || c == '\x0c'

/-- The regex class `\d`. -/
def pyIsDigit (c : Char) : Bool := c.isDigit

/-- The regex class `\w` (alphanumeric or underscore). -/
def isWordChar (c : Char) : Bool := pyIsAlnum c || c == '_'

/-- `startsWithL needle hay`: `hay` begins with `needle`. -/
def startsWithL : List Char → List Char → Bool
  | [], _ => true
  | _ :: _, [] => false
  | a :: as, b :: bs => a == b && startsWithL as bs

/-- `containsSeq needle hay`: Python's substring test `needle in hay`. -/
def containsSeq (needle : List Char) : List Char → Bool
  | [] => needle.isEmpty
  | c :: rest => startsWithL needle (c :: rest) || containsSeq needle rest

/-- Number of positions at which `needle` occurs in `hay` (used to state
"exactly one `## x` section"-style properties). -/
def countOcc (needle hay : List Char) : Nat :=
  (List.range hay.length).countP (fun p => startsWithL needle (hay.drop p))

/-- Python `s.split('\n')` (always returns at least one piece). -/
def splitOnNl : List Char → List (List Char)
  | [] => [[]]
  | '\n' :: rest => [] :: splitOnNl rest
  | c :: rest =>
    match splitOnNl rest with
    | [] => [[c]]
    | h :: t => (c :: h) :: t

/-- Python `'\n'.join(pieces)`. -/
def joinNl : List (List Char) → List Char
  | [] => []
  | [x] => x
  | x :: xs => x ++ '\n' :: joinNl xs

/-- Python `s.split(sep)` for a one-character separator. -/
def splitOnChar (sep : Char) : List Char → List (List Char)
  | [] => [[]]
  | c :: rest =>
    if c = sep then [] :: splitOnChar sep rest
    else
      match splitOnChar sep rest with
      | [] => [[c]]
      | h :: t => (c :: h) :: t

/-- Python `s.strip()`: remove leading and trailing whitespace. -/
def pyStripL (l : List Char) : List Char :=
  ((l.dropWhile pyIsSpace).reverse.dropWhile pyIsSpace).reverse

/-- Python `int(s)` restricted to the non-negative decimal numerals the
store itself generates (`"001"`, `"002"`, ...); any other shape fails. -/
def pyParseNat (l : List Char) : Option Nat :=
  if l.isEmpty || !(l.all pyIsDigit) then none
  else some (l.foldl (fun acc c => acc * 10 + (c.toNat - 48)) 0)

/-- Python `f"{n:03d}"`: zero-pad a numeral to width 3. -/
def pad3 (n : Nat) : List Char :=
  let s := (toString n).data
  List.replicate (3 - s.length) '0' ++ s

/-- Python `str.capitalize`: first character upper-cased, rest lower-cased. -/
def pyCapitalize (l : List Char) : List Char :=
  match l with
  | [] => []
  | c :: rest => c.toUpper :: rest.map pyToLower

/-- One pass of `re.sub`/`str.replace`: at each position try `step`; on a
match emit its replacement and resume after the consumed (non-empty) match,
otherwise keep the character.  `fuel` is instantiated with the input length
(every match consumes at least one character, so this fuel is exact). -/
def scanStep (step : List Char → Option (List Char × List Char)) :
    Nat → List Char → List Char
  | 0, l => l
  | _ + 1, [] => []
  | fuel + 1, c :: rest =>
    match step (c :: rest) with
    | some (out, rest2) => out ++ scanStep step fuel rest2
    | none => c :: scanStep step fuel rest

/-- Matcher for Python `str.replace(needle, repl)` (non-empty `needle`). -/
def tryLit (needle repl : List Char) (l : List Char) :
    Option (List Char × List Char) :=
  if !needle.isEmpty && startsWithL needle l then some (repl, l.drop needle.length)
  else none

/-- Python `hay.replace(needle, repl)` for a non-empty `needle`. -/
def replaceAllL (needle repl hay : List Char) : List Char :=
  scanStep (tryLit needle repl) hay.length hay

/-
Sanitizer pattern matchers, one per regex of the source
(`src/core/archives_manager.py` lines 20-27 and 78-138; the legacy
`src/archives/core/archives_manager.py` lines 20-53 uses the first four).
-/

/-- Tail of `ANSI_COLOR_PATTERN = \x1B\[\d+(;\d+)*(;*[mK])` after the
digits: greedily consume `(;\d+)*`, then `;*`, then require `m` or `K`.
(For this pattern the greedy parse is equivalent to the regex engine's
backtracking search: a shorter `(;\d+)*` leaves a `;` or digit where
`[mK]` must match, which always fails.) -/
def ansiGroups : Nat → List Char → Option (List Char)
  | 0, l =>
    match (l.dropWhile (· == ';')) with
    | 'm' :: r => some r
    | 'K' :: r => some r
    | _ => none
  | fuel + 1, l =>
    match l with
    | ';' :: rest =>
      let ds := rest.takeWhile pyIsDigit
      if ds.isEmpty then
        match (l.dropWhile (· == ';')) with
        | 'm' :: r => some r
        | 'K' :: r => some r
        | _ => none
      else ansiGroups fuel (rest.drop ds.length)
    | _ =>
      match (l.dropWhile (· == ';')) with
      | 'm' :: r => some r
      | 'K' :: r => some r
      | _ => none

/-- Matcher for `ANSI_COLOR_PATTERN`, removed (replaced by nothing). -/
def tryAnsi (l : List Char) : Option (List Char × List Char) :=
  match l with
  | c1 :: c2 :: rest =>
    if c1 = '\x1b' ∧ c2 = '[' then
      let ds := rest.takeWhile pyIsDigit
      if ds.isEmpty then none
      else
        match ansiGroups rest.length (rest.drop ds.length) with
        | some rest2 => some ([], rest2)
        | none => none
    else none
  | _ => none

/-- Matcher for `ERROR_MESSAGE_PATTERN =
(\[31m|\[1m|\[22m|\[39m|Usage Error[^\n]*)`, removed. -/
def tryError (l : List Char) : Option (List Char × List Char) :=
  if startsWithL "[31m".data l then some ([], l.drop 4)
  else if startsWithL "[1m".data l then some ([], l.drop 3)
  else if startsWithL "[22m".data l then some ([], l.drop 4)
  else if startsWithL "[39m".data l then some ([], l.drop 4)
  else if startsWithL "Usage Error".data l then
    some ([], (l.drop 11).dropWhile (· != '\n'))
  else none

/-- One-or-more spaces (`' +'` in the yarn pattern). -/
def parseSpaces1 (l : List Char) : Option (List Char) :=
  match l with
  | ' ' :: rest => some (rest.dropWhile (· == ' '))
  | _ => none

/-- After `\[` in `YARN_COMMAND_PATTERN`: the non-greedy `.*?\] +your-script`
(`.` excludes newlines): at each `]` try the continuation, else extend. -/
def yarnBracket : Nat → List Char → Option (List Char)
  | 0, _ => none
  | fuel + 1, l =>
    match l with
    | [] => none
    | c :: rest =>
      if c = '\n' then none
      else if c = ']' then
        match parseSpaces1 rest with
        | some r2 =>
          if startsWithL "your-script".data r2 then some (r2.drop 11)
          else yarnBracket fuel rest
        | none => yarnBracket fuel rest
      else yarnBracket fuel rest

/-- Matcher for `YARN_COMMAND_PATTERN = \$ +yarn +run +\[.*?\] +your-script`,
replaced by `` `yarn ios` ``. -/
def tryYarn (l : List Char) : Option (List Char × List Char) :=
  match l with
  | [] => none
  | c0 :: rest =>
    if c0 = '$' then
    match parseSpaces1 rest with
    | none => none
    | some r1 =>
      if startsWithL "yarn".data r1 then
        match parseSpaces1 (r1.drop 4) with
        | none => none
        | some r2 =>
          if startsWithL "run".data r2 then
            match parseSpaces1 (r2.drop 3) with
            | none => none
            | some r3 =>
              match r3 with
              | '[' :: r4 =>
                match yarnBracket r4.length r4 with
                | some rest2 => some ("`yarn ios`".data, rest2)
                | none => none
              | _ => none
          else none
      else none
    else none

/-- Matcher for `\n{3,}`, replaced by exactly two newlines (the greedy
quantifier consumes the whole newline run). -/
def tryCollapse (l : List Char) : Option (List Char × List Char) :=
  if startsWithL "\n\n\n".data l then
    some ("\n\n".data, (l.drop 3).dropWhile (· == '\n'))
  else none

/-- Matcher for `(#+)([^#\s])`, replaced by `\1 \2` (a space inserted after
the hash run; the character after a maximal hash run is never `#`). -/
def tryHeader (l : List Char) : Option (List Char × List Char) :=
  match l with
  | c0 :: _ =>
    if c0 = '#' then
      let hs := l.takeWhile (· == '#')
      match l.drop hs.length with
      | c :: rest => if pyIsSpace c then none else some (hs ++ [' ', c], rest)
      | [] => none
    else none
  | [] => none

/-- Matcher for `(\n\s*[-*])([^\s])`, replaced by `\1 \2`.  (The greedy
`\s*` run is forced: its characters cannot match `[-*]`, so no
backtracking case differs.) -/
def tryBullet (l : List Char) : Option (List Char × List Char) :=
  match l with
  | c0 :: rest =>
    if c0 = '\n' then
      let ws := rest.takeWhile pyIsSpace
      match rest.drop ws.length with
      | b :: c :: rest2 =>
        if (b == '-' || b == '*') && !pyIsSpace c then
          some ('\n' :: (ws ++ [b, ' ', c]), rest2)
        else none
      | _ => none
    else none
  | [] => none

/-- Matcher for `([^\n])``` + `` ` `` ... : `([^\n])` followed by three
backticks, replaced by `\1\n`+fence. -/
def tryFenceBefore (l : List Char) : Option (List Char × List Char) :=
  match l with
  | c :: rest =>
    if c != '\n' && startsWithL "```".data rest then
      some (c :: '\n' :: "```".data, rest.drop 3)
    else none
  | [] => none

/-- Matcher for the fence-then-character pattern (three backticks followed
by `([^\n])`), replaced by fence+`\n\1`. -/
def tryFenceAfter (l : List Char) : Option (List Char × List Char) :=
  if startsWithL "```".data l then
    match l.drop 3 with
    | c :: rest =>
      if c != '\n' then some ("```".data ++ ['\n', c], rest) else none
    | [] => none
  else none

/-
The escaped-character pass of `src/core/archives_manager.py` lines 96-104:
if the raw text contains a literal `\n`, `\t` or `\r` two-character
sequence, the source evaluates `ast.literal_eval(f'"""{content}"""')`,
keeping the original content when that raises
`SyntaxError`/`ValueError` — but not when it succeeds with a *non-string*
value: then `content` is rebound to that value and the next statement,
`ANSI_COLOR_PATTERN.sub('', content)` at line 107, raises an uncaught
`TypeError`.  A body containing `"""` closes the wrapping literal early,
so the wrapped text parses as several adjacent string literals; glued by
whitespace they concatenate to a string, glued by commas they form a
tuple (the non-string case).
-/

/-- Single-character escape decoding table of a Python string literal. -/
def escChar (c : Char) : Option Char :=
  if c = 'n' then some '\n'
  else if c = 't' then some '\t'
  else if c = 'r' then some '\r'
  else if c = '\\' then some '\\'
  else if c.toNat = 39 then some (Char.ofNat 39)
  else if c = '"' then some '"'
  else if c = 'a' then some (Char.ofNat 7)
  else if c = 'b' then some (Char.ofNat 8)
  else if c = 'f' then some (Char.ofNat 12)
  else if c = 'v' then some (Char.ofNat 11)
  else none

/-- Hexadecimal digit value. -/
def hexVal (c : Char) : Option Nat :=
  if '0' ≤ c ∧ c ≤ '9' then some (c.toNat - 48)
  else if 'a' ≤ c ∧ c ≤ 'f' then some (c.toNat - 87)
  else if 'A' ≤ c ∧ c ≤ 'F' then some (c.toNat - 55)
  else none

/-- Octal digit value. -/
def octVal (c : Char) : Option Nat :=
  if '0' ≤ c ∧ c ≤ '7' then some (c.toNat - 48) else none

/-- Read exactly `k` hexadecimal digits (most significant first),
returning their value and the rest of the text; fewer than `k` digits is
a syntax error. -/
def takeHex : Nat → List Char → Option (Nat × List Char)
  | 0, l => some (0, l)
  | _ + 1, [] => none
  | k + 1, c :: rest =>
    match hexVal c with
    | none => none
    | some d =>
      match takeHex k rest with
      | none => none
      | some (v, r) => some (d * 16 ^ k + v, r)

/-- Read up to two further octal digits after a first digit of value `v`
(CPython reads at most three octal digits in total). -/
def takeOct2 (v : Nat) (l : List Char) : Nat × List Char :=
  match l with
  | [] => (v, [])
  | c1 :: rest1 =>
    match octVal c1 with
    | none => (v, c1 :: rest1)
    | some d1 =>
      match rest1 with
      | [] => (v * 8 + d1, [])
      | c2 :: rest2 =>
        match octVal c2 with
        | none => (v * 8 + d1, c2 :: rest2)
        | some d2 => (v * 64 + d1 * 8 + d2, rest2)

/-- Decode the backslash escapes of a Python string-literal body, as
CPython's tokenizer does for `str` literals: the single-character escapes
are decoded; `\x`/octal/`\u`/`\U` numeric escapes are decoded, an invalid
or out-of-range numeric escape being a syntax error (`none`); a
backslash-newline is a line continuation; any other unknown escape keeps
its two characters; a trailing backslash is a syntax error.  Two corners
are mapped to the (caught) error outcome although CPython accepts them:
code points in the surrogate range, which are not Lean scalar values, and
`\N{...}` named escapes; no theorem evaluates such an input. -/
def decodeEsc : Nat → List Char → Option (List Char)
  | _, [] => some []
  | 0, _ :: _ => none
  | fuel + 1, c :: rest =>
    if c = '\\' then
      match rest with
      | [] => none
      | e :: rest2 =>
        match escChar e with
        | some d => (decodeEsc fuel rest2).map (fun t => d :: t)
        | none =>
          if e = '\n' then decodeEsc fuel rest2
          else if e = 'x' then
            match takeHex 2 rest2 with
            | none => none
            | some (v, r) => (decodeEsc fuel r).map (fun t => Char.ofNat v :: t)
          else if e = 'u' then
            match takeHex 4 rest2 with
            | none => none
            | some (v, r) =>
              if 0xD800 ≤ v ∧ v ≤ 0xDFFF then none
              else (decodeEsc fuel r).map (fun t => Char.ofNat v :: t)
          else if e = 'U' then
            match takeHex 8 rest2 with
            | none => none
            | some (v, r) =>
              if 0x10FFFF < v ∨ (0xD800 ≤ v ∧ v ≤ 0xDFFF) then none
              else (decodeEsc fuel r).map (fun t => Char.ofNat v :: t)
          else if e = 'N' then none
          else
            match octVal e with
            | some d =>
              let vr := takeOct2 d rest2
              (decodeEsc fuel vr.2).map (fun t => Char.ofNat vr.1 :: t)
            | none => (decodeEsc fuel rest2).map (fun t => '\\' :: e :: t)
    else (decodeEsc fuel rest).map (fun t => c :: t)

/-- Outcome of `ast.literal_eval` on the wrapped content: a string value,
a successfully evaluated non-string value (a tuple of string literals),
or an exception that the source's `except (SyntaxError, ValueError)`
catches. -/
inductive PyEvalResult where
  | str : List Char → PyEvalResult
  | nonStr : PyEvalResult
  | err : PyEvalResult
deriving DecidableEq, Repr

/-- Split a text on (leftmost, non-overlapping) occurrences of `needle`,
accumulating the current piece in reverse. -/
def splitOnSeqF (needle : List Char) : Nat → List Char → List Char → List (List Char)
  | 0, acc, l => [acc.reverse ++ l]
  | _ + 1, acc, [] => [acc.reverse]
  | fuel + 1, acc, c :: rest =>
    if startsWithL needle (c :: rest) then
      acc.reverse :: splitOnSeqF needle fuel [] ((c :: rest).drop needle.length)
    else splitOnSeqF needle fuel (c :: acc) rest

/-- Split the body on its `"""` occurrences: even-indexed pieces are the
insides of string literals, odd-indexed pieces the source text between
adjacent literals. -/
def splitOnTriple (l : List Char) : List (List Char) :=
  splitOnSeqF "\"\"\"".data l.length [] l

/-- Classify the source text between two adjacent string literals:
`some false` for spaces/tabs only (implicit concatenation), `some true`
for spaces/tabs and exactly one comma (a tuple separator), `none` for
anything else (a syntax error for every glue shape the theorems
evaluate). -/
def glueKind (g : List Char) : Option Bool :=
  if g.all (fun c => c == ' ' || c == '\t' || c == ',') then
    match (g.filter (· == ',')).length with
    | 0 => some false
    | 1 => some true
    | _ => none
  else none

/-- Even-indexed and odd-indexed elements of a list, in order. -/
def altSplit : List (List Char) → List (List Char) × List (List Char)
  | [] => ([], [])
  | x :: rest =>
    let p := altSplit rest
    (x :: p.2, p.1)

/-- Modelled external behaviour of
`ast.literal_eval('"""' + content + '"""')`.  The body is split on its
`"""` occurrences; an odd number of occurrences leaves the final wrapper
quote opening an unterminated literal (syntax error).  Otherwise every
even piece is a string-literal body (decoded; a failing body is a syntax
error) and every odd piece is top-level glue: all-whitespace glue
concatenates adjacent literals into one string, glue with commas builds a
tuple — a successfully evaluated non-string — and any other glue is
mapped to the error outcome (for a few exotic glue shapes, such as
comments or quote runs interacting with the delimiters, CPython may
instead parse a value; no theorem evaluates such an input, and the only
universally quantified statement over this function excludes precisely
the non-string outcome). -/
def pyLiteralEvalTriple (l : List Char) : PyEvalResult :=
  let pieces := splitOnTriple l
  if pieces.length % 2 = 0 then PyEvalResult.err
  else
    let p := altSplit pieces
    let bodies := p.1.map (fun b => decodeEsc b.length b)
    if bodies.all Option.isSome then
      let glues := p.2.map glueKind
      if glues.all Option.isSome then
        if glues.any (fun k => k == some true) then PyEvalResult.nonStr
        else PyEvalResult.str (bodies.map (fun o => o.getD [])).flatten
      else PyEvalResult.err
    else PyEvalResult.err

/-- The trigger test of line 98: `'\\n' in content or '\\t' in content or
'\\r' in content` (two-character sequences: backslash then letter). -/
def escTrigger (l : List Char) : Bool :=
  containsSeq "\\n".data l || containsSeq "\\t".data l || containsSeq "\\r".data l

/-- Lines 96-104 as a pure function: rebind the content when the literal
evaluation returns a string, keep the original when it raises a caught
error — and also, vacuously, in the non-string case, where the source
instead crashes one line later with an uncaught `TypeError` (see
`Core.sanitizeEL`); no theorem about the pure pipeline reaches that
case. -/
def escapePass (l : List Char) : List Char :=
  if escTrigger l then
    match pyLiteralEvalTriple l with
    | PyEvalResult.str r => r
    | _ => l
  else l

/-
The trailing-duplicate-header pass, `src/core/archives_manager.py`
lines 133-136.
-/

/-- Condition of line 135: `len(lines) > 2 and lines[0].startswith('# ')
and lines[-1].strip() == lines[0].strip()`. -/
def dupCond (lines : List (List Char)) : Bool :=
  decide (2 < lines.length) &&
    startsWithL "# ".data (lines.head?.getD []) &&
    (pyStripL (lines.getLast?.getD []) == pyStripL (lines.head?.getD []))

/-- Lines 133-136: drop the last line when it duplicates a `# ` title. -/
def dropDupHeader (l : List Char) : List Char :=
  let lines := splitOnNl l
  if dupCond lines then joinNl lines.dropLast else l

/-- Literal substitution table of lines 113-117 (source side). -/
def yarnAndroidFrom : List Char :=
  "`yarn ios` ... to build and run on Android simulator or device".data

/-- Literal substitution table of lines 113-117 (replacement side). -/
def yarnAndroidTo : List Char :=
  "`yarn android` to build and run on Android simulator or device".data

namespace Core

/-- The tail of `sanitize_content` after the escape pass
(`src/core/archives_manager.py` lines 107-138), applying the substitution
passes in source order. -/
def sanitizeTail (l : List Char) : List Char :=
  let c1 := scanStep tryAnsi l.length l
  let c2 := scanStep tryError c1.length c1
  let c3 := scanStep tryYarn c2.length c2
  let c4 := replaceAllL yarnAndroidFrom yarnAndroidTo c3
  let c5 := replaceAllL "<scriptName> ...".data "your-script ...".data c4
  let c6 := scanStep tryCollapse c5.length c5
  let c7 := scanStep tryHeader c6.length c6
  let c8 := scanStep tryBullet c7.length c7
  let c9 := scanStep tryFenceBefore c8.length c8
  let c10 := scanStep tryFenceAfter c9.length c9
  dropDupHeader c10

/-- `sanitize_content` of `src/core/archives_manager.py` lines 78-138 on
character lists: the escape pass, then the substitution passes. -/
def sanitizeL (l : List Char) : List Char :=
  sanitizeTail (escapePass l)

/-- `sanitize_content` of `src/core/archives_manager.py` on strings. -/
def sanitize_content (s : String) : String := String.mk (sanitizeL s.data)

end Core

namespace Legacy

/-- `sanitize_content` of `src/archives/core/archives_manager.py`
lines 27-53 (no escape pass, no markdown fixes, no duplicate-header
pass) on character lists. -/
def sanitizeL (l : List Char) : List Char :=
  let c1 := scanStep tryAnsi l.length l
  let c2 := scanStep tryError c1.length c1
  let c3 := scanStep tryYarn c2.length c2
  let c4 := replaceAllL yarnAndroidFrom yarnAndroidTo c3
  let c5 := replaceAllL "<scriptName> ...".data "your-script ...".data c4
  scanStep tryCollapse c5.length c5

/-- Legacy `sanitize_content` on strings. -/
def sanitize_content (s : String) : String := String.mk (sanitizeL s.data)

end Legacy

/-
Retrieval engine: tokenization and whole-word scoring
(`src/core/archives_manager.py` lines 29-76).
-/

/-- Maximal `\w+` runs of a text (`TOKEN_PATTERN.findall`), accumulating
the current run in reverse. -/
def wordRuns : List Char → List Char → List (List Char)
  | [], acc => if acc.isEmpty then [] else [acc.reverse]
  | c :: rest, acc =>
    if isWordChar c then wordRuns rest (c :: acc)
    else if acc.isEmpty then wordRuns rest []
    else acc.reverse :: wordRuns rest []

/-- `tokenize` (lines 29-39): lower-cased `\w+` runs. -/
def tokenizeL (l : List Char) : List (List Char) :=
  (wordRuns l []).map (List.map pyToLower)

/-- Python `content.find(tok, idx)` unrolled with fuel: first position
`p ≥ idx` at which `tok` occurs (`none` for Python's `-1`). -/
def findFromF (tok hay : List Char) : Nat → Nat → Option Nat
  | 0, _ => none
  | fuel + 1, idx =>
    if startsWithL tok (hay.drop idx) then some idx
    else if hay.length ≤ idx then none
    else findFromF tok hay fuel (idx + 1)

/-- `content.find(tok, idx)` with its exact fuel. -/
def findFromL (tok hay : List Char) (idx : Nat) : Option Nat :=
  findFromF tok hay (hay.length + 1 - idx) idx

/-- The whole-word check of `score_document` lines 64-68: the character
before position `p` (if any) and the character after the occurrence (if
any) are not alphanumeric. -/
def boundaryOk (tok hay : List Char) (p : Nat) : Bool :=
  (decide (p = 0) || !(pyIsAlnum (hay.getD (p - 1) ' '))) &&
  (decide (hay.length ≤ p + tok.length) || !(pyIsAlnum (hay.getD (p + tok.length) ' ')))

/-- The `while idx < len` / `find` / `idx += 1` loop of `score_document`
lines 58-74 for one query token: score increments and match positions. -/
def scoreTokLoop (tok hay : List Char) : Nat → Nat → Nat × List Nat
  | 0, _ => (0, [])
  | fuel + 1, idx =>
    if hay.length ≤ idx then (0, [])
    else
      match findFromL tok hay idx with
      | none => (0, [])
      | some p =>
        let r := scoreTokLoop tok hay fuel (p + 1)
        if boundaryOk tok hay p then (r.1 + 1, p :: r.2) else r

/-- `score_document` (lines 41-76): sum the per-token loop over the query
tokens against the lower-cased content, accumulating match positions. -/
def score_document (queryTokens : List (List Char)) (content : List Char) :
    Nat × List Nat :=
  let cl := content.map pyToLower
  queryTokens.foldl (fun acc t =>
    let r := scoreTokLoop t cl (cl.length + 1) 0
    (acc.1 + r.1, acc.2 ++ r.2)) (0, [])

/-- Specification-side predicate (from the spec's words): position `p` of
the lower-cased text carries an occurrence of the token bounded on both
sides by a non-alphanumeric character or a string edge. -/
def specWordHitAt (tok hay : List Char) (p : Nat) : Bool :=
  startsWithL tok (hay.drop p) && boundaryOk tok hay p

/-- Specification-side count (from the spec's words): the number of
whole-word-bounded occurrence positions of a query token in the
lower-cased document. -/
def specWholeWordCount (tok content : List Char) : Nat :=
  (List.range (content.map pyToLower).length).countP
    (specWordHitAt tok (content.map pyToLower))

/-
Archive corpus model.  A corpus is the on-disk state: one entry per
markdown file with its project directory, section directory, file name,
modification time and content.  Directory enumeration order is the list
order.
-/

/-- One archive document on disk. -/
structure ArchFile where
  project : String
  sectionName : String
  fileName : String
  mtime : Nat
  content : String
deriving DecidableEq, Repr

/-- The parts of the loaded configuration the search engine reads
(`config["settings"]["archive_structure"]["projects"]`). -/
structure Config where
  projects : List String
deriving Repr

/-- Result dictionary of the search functions. The exact-match phase emits
no `score`/`matched_tokens` keys, modelled by `none`. -/
structure SearchResult where
  project : String
  sectionName : String
  file : String
  title : String
  snippet : String
  score : Option Nat
  matched_tokens : Option Nat
deriving DecidableEq, Repr

/-- Result dictionary of the token-overlap phase (all keys present). -/
structure TokenHit where
  project : String
  sectionName : String
  file : String
  title : String
  snippet : String
  score : Nat
  matched_tokens : Nat
deriving DecidableEq, Repr

/-- Absolute path of a document (relative to the archives root). -/
def pathOf (f : ArchFile) : String :=
  f.project ++ "/" ++ f.sectionName ++ "/" ++ f.fileName

/-- The projects a search visits: `[project]` when a filter is given,
otherwise the configured projects list. -/
def scopeProjects (pf : Option String) (cfg : Config) : List String :=
  match pf with
  | some p => [p]
  | none => cfg.projects

/-- The documents a search enumerates (every section of every project in
scope). -/
def inScope (pf : Option String) (cfg : Config) (corpus : List ArchFile) :
    List ArchFile :=
  corpus.filter (fun f => decide (f.project ∈ scopeProjects pf cfg))

/-- Lower-cased copy of a text (`str.lower`). -/
def lowerL (l : List Char) : List Char := l.map pyToLower

/-- Title extraction of lines 356-358 / 421-423: first line stripped of
leading hashes when it is a header, else the file name. -/
def titleOf (f : ArchFile) : String :=
  let firstLine := f.content.data.takeWhile (· != '\n')
  if startsWithL "#".data firstLine then
    String.mk (pyStripL (firstLine.dropWhile (· == '#')))
  else f.fileName

/-- `content.lower().find(query.lower())` of line 416 (only evaluated on
matching documents, where the occurrence exists). -/
def firstOccPos (needle hay : List Char) : Nat := (findFromL needle hay 0).getD 0

/-- Exact-phase snippet (lines 415-419): a window from 100 characters
before the first occurrence to 100 characters after it. -/
def exactSnippet (q : String) (content : List Char) : String :=
  let p := firstOccPos (lowerL q.data) (lowerL content)
  let start := p - 100
  let stop := min content.length (p + q.data.length + 100)
  String.mk ((content.drop start).take (stop - start))

/-- Result dictionary built by `_exact_match_search` lines 425-431. -/
def mkExact (q : String) (f : ArchFile) : SearchResult :=
  { project := f.project, sectionName := f.sectionName, file := pathOf f,
    title := titleOf f, snippet := exactSnippet q f.content.data,
    score := none, matched_tokens := none }

/-- Token-phase snippet (lines 346-354): window around the first recorded
match position, or the first 300 characters when none was recorded. -/
def tokenSnippet (positions : List Nat) (content : List Char) : String :=
  match positions with
  | p :: _ =>
    String.mk ((content.drop (p - 100)).take (min content.length (p + 200) - (p - 100)))
  | [] => String.mk (content.take 300)

/-- `matched_tokens` of line 367: number of distinct query tokens present
anywhere in the lower-cased document (plain substring test). -/
def matchedTokens (toks : List (List Char)) (content : List Char) : Nat :=
  ((toks.filter (fun t => containsSeq (lowerL t) (lowerL content))).eraseDups).length

/-- Result dictionary built by the token phase, lines 360-368. -/
def mkToken (toks : List (List Char)) (f : ArchFile) (score : Nat)
    (positions : List Nat) : TokenHit :=
  { project := f.project, sectionName := f.sectionName, file := pathOf f,
    title := titleOf f, snippet := tokenSnippet positions f.content.data,
    score := score, matched_tokens := matchedTokens toks f.content.data }

/-- Strict descending comparison on the sort key `(score, matched_tokens)`
of line 371. -/
def hitKeyLt (a b : TokenHit) : Bool :=
  decide (a.score < b.score) ||
    ((a.score == b.score) && decide (a.matched_tokens < b.matched_tokens))

/-- Stable insertion into a descending-sorted list: walk past strictly
greater keys, so equal keys keep their original relative order — the
semantics of Python's stable `list.sort(key=..., reverse=True)`. -/
def insertDesc (x : TokenHit) : List TokenHit → List TokenHit
  | [] => [x]
  | y :: ys => if hitKeyLt x y then y :: insertDesc x ys else x :: y :: ys

/-- `results.sort(key=lambda x: (x['score'], x['matched_tokens']),
reverse=True)` of line 371, embedded as a stable insertion sort. -/
def sortByScoreDesc (l : List TokenHit) : List TokenHit := l.foldr insertDesc []

namespace Core

/-- `_exact_match_search` (lines 374-433): one result per in-scope
document containing the query as a case-insensitive substring. -/
def exact_match_search (q : String) (pf : Option String) (cfg : Config)
    (corpus : List ArchFile) : List SearchResult :=
  (inScope pf cfg corpus).filterMap (fun f =>
    if containsSeq (lowerL q.data) (lowerL f.content.data) then some (mkExact q f)
    else none)

/-- The token-overlap phase of `search_archives` (lines 310-372): score
every in-scope document, keep positive scores, sort descending by
`(score, matched_tokens)`. -/
def token_search (q : String) (pf : Option String) (cfg : Config)
    (corpus : List ArchFile) : List TokenHit :=
  let toks := tokenizeL q.data
  if toks.isEmpty then []
  else
    sortByScoreDesc ((inScope pf cfg corpus).filterMap (fun f =>
      let r := score_document toks f.content.data
      if 0 < r.1 then some (mkToken toks f r.1 r.2) else none))

/-- A token-phase dictionary viewed as a generic search result. -/
def tokenToResult (h : TokenHit) : SearchResult :=
  { project := h.project, sectionName := h.sectionName, file := h.file,
    title := h.title, snippet := h.snippet, score := some h.score,
    matched_tokens := some h.matched_tokens }

/-- `search_archives` (lines 292-372): exact phase first; the token phase
runs only when the exact phase returns nothing. -/
def search_archives (q : String) (pf : Option String) (cfg : Config)
    (corpus : List ArchFile) : List SearchResult :=
  let exact := exact_match_search q pf cfg corpus
  if exact.isEmpty then (token_search q pf cfg corpus).map tokenToResult
  else exact

end Core

/-- The section directory listing `glob.glob(section_dir/"*.md")` of the
core store: documents of one `(project, section)` pair. -/
def sectionFiles (corpus : List ArchFile) (project sectionName : String) :
    List ArchFile :=
  corpus.filter (fun f => f.project == project && f.sectionName == sectionName)

/-- One step of the maximal-mtime fold: keep the incumbent unless the new
file is strictly newer (so ties keep the first-listed file, as the stable
descending sort of the source does). -/
def latestStep (acc : Option ArchFile) (f : ArchFile) : Option ArchFile :=
  match acc with
  | none => some f
  | some g => if g.mtime < f.mtime then some f else some g

/-- `existing_files.sort(key=getmtime, reverse=True); existing_files[0]`
of lines 229-232: the first-listed document of maximal mtime. -/
def latestByMtime (l : List ArchFile) : Option ArchFile :=
  l.foldl latestStep none

/-- Fresh file name of line 236 (`{project}_{section}_{timestamp}.md`,
the timestamp modelled by the `now` parameter). -/
def newFileName (project sectionName : String) (now : Nat) : String :=
  project ++ "_" ++ sectionName ++ "_" ++ toString now ++ ".md"

namespace Core

/-- `get_appropriate_archive_file` of `src/core/archives_manager.py`
lines 195-242: the most-recently-modified existing document when one
exists (never inspecting its size), else a fresh timestamped document. -/
def get_appropriate_archive_file (corpus : List ArchFile)
    (project sectionName : String) (now : Nat) : String × Bool :=
  match latestByMtime (sectionFiles corpus project sectionName) with
  | some g => (pathOf g, false)
  | none =>
    (project ++ "/" ++ sectionName ++ "/" ++ newFileName project sectionName now, true)

end Core

/-- Return value of `add_to_archives`, extended for specification purposes
with the text written to the target file and the updated corpus (the
source returns only the path; the write is its side effect). -/
structure AddOut where
  file : String
  written : String
  state : List ArchFile
deriving Repr

namespace Core

/-- `add_to_archives` of `src/core/archives_manager.py` lines 244-290:
resolve the target document, sanitize the content, prepend a `#` header on
a fresh document or append a `---`-delimited entry to the existing one,
and write the result back. -/
def add_to_archives (corpus : List ArchFile) (project sectionName content : String)
    (title : Option String) (now : Nat) : AddOut :=
  let sanitized := sanitize_content content
  match latestByMtime (sectionFiles corpus project sectionName) with
  | none =>
    let t :=
      match title with
      | some t => t
      | none =>
        String.mk (pyCapitalize project.data) ++ " " ++
          String.mk (pyCapitalize sectionName.data)
    let written := "# " ++ t ++ "\n\n" ++ sanitized
    let nf : ArchFile :=
      ⟨project, sectionName, newFileName project sectionName now, now, written⟩
    ⟨pathOf nf, written, corpus ++ [nf]⟩
  | some g =>
    let written :=
      match title with
      | some t => g.content ++ "\n\n---\n\n## " ++ t ++ "\n\n" ++ sanitized
      | none => g.content ++ "\n\n---\n\n" ++ sanitized
    ⟨pathOf g, written,
      corpus.map (fun h =>
        if pathOf h == pathOf g then { h with content := written, mtime := now }
        else h)⟩

end Core

/-
Legacy rotation-aware store (`src/archives/core/archives_manager.py`
lines 166-214).
-/

/-- Strict lexicographic comparison of names (Python string `<`). -/
def strLtL : List Char → List Char → Bool
  | [], [] => false
  | [], _ :: _ => true
  | _ :: _, [] => false
  | a :: as, b :: bs => if a < b then true else if b < a then false else strLtL as bs

/-- Stable ascending insertion by file name (Python `sorted`). -/
def insertAscName (x : String × String) :
    List (String × String) → List (String × String)
  | [] => [x]
  | y :: ys => if strLtL y.1.data x.1.data then y :: insertAscName x ys else x :: y :: ys

/-- `sorted(glob.glob(section_dir/"*.md"))` over (name, content) pairs. -/
def sortByName (l : List (String × String)) : List (String × String) :=
  l.foldr insertAscName []

/-- Python file-line counting `sum(1 for _ in f)`: newline count, plus one
for a non-empty final line. -/
def lineCount (l : List Char) : Nat :=
  match l.getLast? with
  | none => 0
  | some c => l.countP (· == '\n') + (if c = '\n' then 0 else 1)

/-- `int(basename.split('_')[1].split('.')[0])` of line 205; `none` models
the exception branch (missing piece or non-numeric). -/
def parseSeqNum (name : String) : Option Nat :=
  match (splitOnChar '_' name.data).get? 1 with
  | none => none
  | some piece => pyParseNat (piece.takeWhile (· != '.'))

namespace Legacy

/-- `get_appropriate_archive_file` of `src/archives/core/archives_manager.py`
lines 166-214: the lexicographically last document of the section
directory (a `(name, content)` listing) is kept while its line count is
under `max_file_lines`; otherwise the next sequence-numbered document is
designated (any failure while deriving it falls back to `<section>_001.md`,
the source's `except` branch). -/
def get_appropriate_archive_file (maxLines : Nat) (dir : List (String × String))
    (sectionName : String) : String × Bool :=
  let files := sortByName dir
  match files.getLast? with
  | none => (sectionName ++ "_001.md", true)
  | some (name, content) =>
    if maxLines ≤ lineCount content.data then
      match parseSeqNum name with
      | some k => (sectionName ++ "_" ++ String.mk (pad3 (k + 1)) ++ ".md", true)
      | none => (sectionName ++ "_001.md", true)
    else (name, false)

end Legacy

/-
Rule store (`src/archives/core/archives_manager.py` lines 370-484).
-/

/-- `"## " + rule_name`, the literal head of the section pattern. -/
def hdrOf (name : List Char) : List Char := "## ".data ++ name

/-- End position of the match of
`## <name>(.*?)(?:## |$)` (DOTALL) started at position 0 of `l`, scanning
from `q`: the non-greedy group stops at the first position where `## `
matches (consuming those three characters) or where `$` matches (end of
text, or just before a final newline), whichever comes first. -/
def ruleStop (hay : List Char) : Nat → Nat → Nat
  | 0, q => q
  | fuel + 1, q =>
    if startsWithL "## ".data (hay.drop q) then q + 3
    else if hay.length ≤ q then q
    else if (q + 1 == hay.length) && (hay.getD q ' ' == '\n') then q
    else ruleStop hay fuel (q + 1)

/-- Matcher for `rule_section_pattern.sub`: at an occurrence of the header
the whole section match (through the consumed next `## ` or the end
anchor) is replaced by `repl`. -/
def tryRule (name repl : List Char) (l : List Char) :
    Option (List Char × List Char) :=
  if startsWithL (hdrOf name) l then
    let gs := (hdrOf name).length
    some (repl, l.drop (ruleStop l (l.length + 1 - gs) gs))
  else none

/-- Whether a final `\n\n` is present (`existing_content.endswith`). -/
def endsWithL (suffix l : List Char) : Bool :=
  startsWithL suffix.reverse l.reverse

namespace Legacy

/-- `update_custom_rules` of `src/archives/core/archives_manager.py`
lines 370-435, acting on the rules document text (`existing` is the
current file content, empty when the file is absent): replace every match
of the section pattern when the header occurs, else append a new section
after at most one blank-line separator. -/
def update_custom_rules (existing rule_content rule_name : String) : String :=
  let sanitized := sanitizeL rule_content.data
  let hdr := hdrOf rule_name.data
  let repl := hdr ++ "\n\n".data ++ sanitized ++ "\n\n".data
  if containsSeq hdr existing.data then
    String.mk (scanStep (tryRule rule_name.data repl) existing.data.length existing.data)
  else
    let ex2 :=
      if !existing.data.isEmpty && !(endsWithL "\n\n".data existing.data) then
        existing.data ++ "\n\n".data
      else existing.data
    String.mk (ex2 ++ repl)

end Legacy

/-- `re.split(r'(?=## )', content)`: cut before every occurrence of
`## `, keeping a leading empty piece when the text starts with one. -/
def splitBeforeHdrF : Nat → List Char → List Char → List (List Char)
  | 0, acc, l => [acc.reverse ++ l]
  | _ + 1, acc, [] => [acc.reverse]
  | fuel + 1, acc, c :: rest =>
    if startsWithL "## ".data (c :: rest) then
      acc.reverse :: splitBeforeHdrF fuel [c] rest
    else splitBeforeHdrF fuel (c :: acc) rest

/-- `re.split(r'(?=## )', content)` with its exact fuel. -/
def splitBeforeHdr (l : List Char) : List (List Char) :=
  splitBeforeHdrF l.length [] l

/-- `re.match(r'## (.*?)\n(.*)', section, re.DOTALL)` of lines 463-479:
header sections yield (stripped name, stripped body); anything else is
reported under the sentinel name `general`. -/
def parseRuleSection (sec : List Char) : String × String :=
  if startsWithL "## ".data sec && containsSeq ['\n'] (sec.drop 3) then
    let afterHdr := sec.drop 3
    let name := afterHdr.takeWhile (· != '\n')
    let body := (afterHdr.dropWhile (· != '\n')).drop 1
    (String.mk (pyStripL name), String.mk (pyStripL body))
  else ("general", String.mk (pyStripL sec))

namespace Legacy

/-- `get_custom_rules` of lines 437-484 on the rules document text:
split on `## ` boundaries, skip blank pieces, parse each section. -/
def get_custom_rules (content : String) : List (String × String) :=
  (splitBeforeHdr content.data).filterMap (fun sec =>
    if (pyStripL sec).isEmpty then none else some (parseRuleSection sec))

end Legacy

/-- Inputs on which no sanitizer transformation can fire: none of the
trigger characters of the ANSI/error/yarn/markdown patterns, no
`Usage Error` banner and no run of three newlines. -/
def cleanInput (s : String) : Bool :=
  s.data.all (fun c =>
    !(c == '\x1b' || c == '[' || c == '\\' || c == '#' || c == '`' ||
      c == '-' || c == '*' || c == '$' || c == '<')) &&
  !(containsSeq "Usage Error".data s.data) &&
  !(containsSeq "\n\n\n".data s.data)

/-
Basic lemmas about the string primitives.
-/

theorem startsWithL_iff_append (t l : List Char) :
    startsWithL t l = true ↔ ∃ u, l = t ++ u := by
  induction t generalizing l with
  | nil => simp [startsWithL]
  | cons a as ih =>
    cases l with
    | nil => simp [startsWithL]
    | cons b bs =>
      simp only [startsWithL, Bool.and_eq_true, beq_iff_eq, ih, List.cons_append,
        List.cons.injEq]
      constructor
      · rintro ⟨rfl, u, rfl⟩; exact ⟨u, rfl, rfl⟩
      · rintro ⟨u, rfl, rfl⟩; exact ⟨rfl, u, rfl⟩

theorem containsSeq_iff_drop (t l : List Char) :
    containsSeq t l = true ↔ ∃ n, startsWithL t (l.drop n) = true := by
  induction l with
  | nil =>
    simp only [containsSeq, List.isEmpty_iff, List.drop_nil]
    constructor
    · rintro rfl; exact ⟨0, rfl⟩
    · rintro ⟨n, hn⟩
      cases t with
      | nil => rfl
      | cons a as => simp [startsWithL] at hn
  | cons c rest ih =>
    simp only [containsSeq, Bool.or_eq_true, ih]
    constructor
    · rintro (h | ⟨n, hn⟩)
      · exact ⟨0, h⟩
      · exact ⟨n + 1, hn⟩
    · rintro ⟨n, hn⟩
      cases n with
      | zero => exact Or.inl hn
      | succ m => exact Or.inr ⟨m, hn⟩

theorem startsWithL_imp_containsSeq {t l : List Char} (h : startsWithL t l = true) :
    containsSeq t l = true :=
  (containsSeq_iff_drop t l).2 ⟨0, by simpa using h⟩

theorem containsSeq_of_drop {t l : List Char} {n : Nat}
    (h : containsSeq t (l.drop n) = true) : containsSeq t l = true := by
  rcases (containsSeq_iff_drop t (l.drop n)).1 h with ⟨m, hm⟩
  exact (containsSeq_iff_drop t l).2 ⟨n + m, by simpa [List.drop_drop, Nat.add_comm] using hm⟩

theorem containsSeq_mem {t l : List Char} (h : containsSeq t l = true) :
    ∀ c ∈ t, c ∈ l := by
  rcases (containsSeq_iff_drop t l).1 h with ⟨n, hn⟩
  rcases (startsWithL_iff_append t (l.drop n)).1 hn with ⟨u, hu⟩
  intro c hc
  have : c ∈ l.drop n := by rw [hu]; exact List.mem_append_left _ hc
  exact List.mem_of_mem_drop this

theorem startsWithL_mem {t l : List Char} (h : startsWithL t l = true) :
    ∀ c ∈ t, c ∈ l :=
  containsSeq_mem (startsWithL_imp_containsSeq h)

theorem containsSeq_map {t l : List Char} (f : Char → Char)
    (h : containsSeq t l = true) : containsSeq (t.map f) (l.map f) = true := by
  rcases (containsSeq_iff_drop t l).1 h with ⟨n, hn⟩
  rcases (startsWithL_iff_append t (l.drop n)).1 hn with ⟨u, hu⟩
  refine (containsSeq_iff_drop _ _).2 ⟨n, ?_⟩
  refine (startsWithL_iff_append _ _).2 ⟨u.map f, ?_⟩
  rw [← List.map_drop, hu, List.map_append]

theorem containsSeq_nil_needle (l : List Char) : containsSeq [] l = true := by
  cases l <;> simp [containsSeq, startsWithL]

theorem splitOnNl_ne_nil (l : List Char) : splitOnNl l ≠ [] := by
  induction l with
  | nil => simp [splitOnNl]
  | cons c rest ih =>
    by_cases h : c = '\n'
    · subst h; simp [splitOnNl]
    · rw [show splitOnNl (c :: rest) =
          (match splitOnNl rest with
           | [] => [[c]]
           | h :: t => (c :: h) :: t) by
        cases rest <;> simp_all [splitOnNl]]
      rcases splitOnNl rest with _ | ⟨h2, t⟩ <;> simp

theorem splitOnNl_mem_subset (l : List Char) :
    ∀ seg ∈ splitOnNl l, ∀ c ∈ seg, c ∈ l := by
  induction l with
  | nil => intro seg hseg c hc; simp [splitOnNl] at hseg; subst hseg; cases hc
  | cons a rest ih =>
    intro seg hseg c hc
    by_cases h : a = '\n'
    · subst h
      simp only [splitOnNl] at hseg
      rcases List.mem_cons.1 hseg with rfl | hseg
      · cases hc
      · exact List.mem_cons_of_mem _ (ih seg hseg c hc)
    · have heq : splitOnNl (a :: rest) =
          (match splitOnNl rest with
           | [] => [[a]]
           | h :: t => (a :: h) :: t) := by
        cases rest <;> simp_all [splitOnNl]
      cases hh : splitOnNl rest with
      | nil => exact absurd hh (splitOnNl_ne_nil rest)
      | cons h2 t =>
        rw [heq, hh] at hseg
        rcases List.mem_cons.1 hseg with rfl | hseg
        · rcases List.mem_cons.1 hc with rfl | hc
          · exact List.mem_cons_self _ _
          · exact List.mem_cons_of_mem _
              (ih h2 (by rw [hh]; exact List.mem_cons_self _ _) c hc)
        · exact List.mem_cons_of_mem _
            (ih seg (by rw [hh]; exact List.mem_cons_of_mem _ hseg) c hc)

/-
Identity of the substitution passes on trigger-free input.
-/

theorem scanStep_eq_self (step : List Char → Option (List Char × List Char)) :
    ∀ (fuel : Nat) (l : List Char), (∀ n, step (l.drop n) = none) →
      scanStep step fuel l = l := by
  intro fuel
  induction fuel with
  | zero => intro l _; rfl
  | succ fuel ih =>
    intro l h
    cases l with
    | nil => rfl
    | cons c rest =>
      have h0 : step (c :: rest) = none := by simpa using h 0
      simp only [scanStep, h0]
      exact congrArg (c :: ·) (ih rest (fun n => by simpa using h (n + 1)))

theorem tryAnsi_eq_none {l : List Char} (h : '\x1b' ∉ l) : tryAnsi l = none := by
  cases l with
  | nil => rfl
  | cons c1 t =>
    cases t with
    | nil => rfl
    | cons c2 rest =>
      have : ¬(c1 = '\x1b' ∧ c2 = '[') := by
        rintro ⟨rfl, -⟩
        exact h (List.mem_cons_self _ _)
      simp [tryAnsi, this]

theorem tryError_eq_none {l : List Char} (h1 : '[' ∉ l)
    (h2 : containsSeq "Usage Error".data l = false) : tryError l = none := by
  have hb : ∀ (t : List Char), '[' ∈ t → startsWithL t l = false := by
    intro t ht
    cases hs : startsWithL t l
    · rfl
    · exact absurd (startsWithL_mem hs '[' ht) h1
  have hu : startsWithL "Usage Error".data l = false := by
    cases hs : startsWithL "Usage Error".data l
    · rfl
    · rw [startsWithL_imp_containsSeq hs] at h2; cases h2
  simp only [tryError, hb "[31m".data (by decide), hb "[1m".data (by decide),
    hb "[22m".data (by decide), hb "[39m".data (by decide), hu]
  rfl

theorem tryYarn_eq_none {l : List Char} (h : '$' ∉ l) : tryYarn l = none := by
  cases l with
  | nil => rfl
  | cons c rest =>
    have : c ≠ '$' := fun hc => h (hc ▸ List.mem_cons_self _ _)
    simp [tryYarn, this]

theorem tryLit_eq_none {needle repl l : List Char}
    (h : containsSeq needle l = false) :
    tryLit needle repl l = none := by
  have : startsWithL needle l = false := by
    cases hs : startsWithL needle l
    · rfl
    · rw [startsWithL_imp_containsSeq hs] at h; cases h
  simp [tryLit, this]

theorem tryCollapse_eq_none {l : List Char}
    (h : containsSeq "\n\n\n".data l = false) : tryCollapse l = none := by
  have : startsWithL "\n\n\n".data l = false := by
    cases hs : startsWithL "\n\n\n".data l
    · rfl
    · rw [startsWithL_imp_containsSeq hs] at h; cases h
  simp [tryCollapse, this]

theorem tryHeader_eq_none {l : List Char} (h : '#' ∉ l) : tryHeader l = none := by
  cases l with
  | nil => rfl
  | cons c rest =>
    have : c ≠ '#' := fun hc => h (hc ▸ List.mem_cons_self _ _)
    simp [tryHeader, this]

theorem tryBullet_eq_none {l : List Char} (hd : '-' ∉ l) (hs : '*' ∉ l) :
    tryBullet l = none := by
  cases l with
  | nil => rfl
  | cons c rest =>
    by_cases hc : c = '\n'
    · subst hc
      rcases hrest : rest.drop (rest.takeWhile pyIsSpace).length with _ | ⟨b, t2⟩
      · simp [tryBullet, hrest]
      · rcases t2 with _ | ⟨c2, rest2⟩
        · simp [tryBullet, hrest]
        · have hbmem : b ∈ rest :=
            List.mem_of_mem_drop (by rw [hrest]; exact List.mem_cons_self _ _)
          have hb : (b == '-' || b == '*') = false := by
            cases hb1 : b == '-'
            · cases hb2 : b == '*'
              · rfl
              · exact absurd
                  (by rw [eq_of_beq hb2] at hbmem; exact List.mem_cons_of_mem _ hbmem) hs
            · exact absurd
                (by rw [eq_of_beq hb1] at hbmem; exact List.mem_cons_of_mem _ hbmem) hd
          simp [tryBullet, hrest, hb]
    · simp [tryBullet, hc]

theorem tryFenceBefore_eq_none {l : List Char} (h : '`' ∉ l) :
    tryFenceBefore l = none := by
  cases l with
  | nil => rfl
  | cons c rest =>
    have : startsWithL "```".data rest = false := by
      cases hsw : startsWithL "```".data rest
      · rfl
      · exact absurd (List.mem_cons_of_mem _ (startsWithL_mem hsw '`' (by decide))) h
    simp [tryFenceBefore, this]

theorem tryFenceAfter_eq_none {l : List Char} (h : '`' ∉ l) :
    tryFenceAfter l = none := by
  have : startsWithL "```".data l = false := by
    cases hsw : startsWithL "```".data l
    · rfl
    · exact absurd (startsWithL_mem hsw '`' (by decide)) h
  simp [tryFenceAfter, this]

theorem escTrigger_eq_false {l : List Char} (h : '\\' ∉ l) :
    escTrigger l = false := by
  have hg : ∀ (t : List Char), '\\' ∈ t → containsSeq t l = false := by
    intro t ht
    cases hc : containsSeq t l
    · rfl
    · exact absurd (containsSeq_mem hc '\\' ht) h
  simp [escTrigger, hg "\\n".data (by decide), hg "\\t".data (by decide),
    hg "\\r".data (by decide)]

theorem escapePass_eq_self {l : List Char} (h : '\\' ∉ l) : escapePass l = l := by
  simp [escapePass, escTrigger_eq_false h]

theorem dupCond_eq_false {l : List Char} (h : '#' ∉ l) :
    dupCond (splitOnNl l) = false := by
  have hhead : startsWithL "# ".data ((splitOnNl l).head?.getD []) = false := by
    cases hs : startsWithL "# ".data ((splitOnNl l).head?.getD [])
    · rfl
    · exfalso
      have hmem : '#' ∈ (splitOnNl l).head?.getD [] := startsWithL_mem hs '#' (by decide)
      cases hl : splitOnNl l with
      | nil => exact absurd hl (splitOnNl_ne_nil l)
      | cons s t =>
        rw [hl] at hmem
        exact h (splitOnNl_mem_subset l s (by rw [hl]; exact List.mem_cons_self _ _) '#'
          (by simpa using hmem))
  simp [dupCond, hhead]

theorem dropDupHeader_eq_self {l : List Char} (h : '#' ∉ l) :
    dropDupHeader l = l := by
  simp [dropDupHeader, dupCond_eq_false h]

theorem sanitizeL_eq_self_of_clean {l : List Char}
    (hA : ∀ c ∈ l, (c == '\x1b' || c == '[' || c == '\\' || c == '#' ||
      c == '`' || c == '-' || c == '*' || c == '$' || c == '<') = false)
    (hU : containsSeq "Usage Error".data l = false)
    (hN : containsSeq "\n\n\n".data l = false) :
    Core.sanitizeL l = l := by
  have hnm : ∀ (c0 : Char), (c0 == '\x1b' || c0 == '[' || c0 == '\\' || c0 == '#' ||
      c0 == '`' || c0 == '-' || c0 == '*' || c0 == '$' || c0 == '<') = true →
      c0 ∉ l := by
    intro c0 hc0 hm
    have := hA c0 hm
    rw [hc0] at this
    cases this
  have hesc : '\x1b' ∉ l := hnm _ (by decide)
  have hbs : '\\' ∉ l := hnm _ (by decide)
  have hhash : '#' ∉ l := hnm _ (by decide)
  have htick : '`' ∉ l := hnm _ (by decide)
  have hdash : '-' ∉ l := hnm _ (by decide)
  have hstar : '*' ∉ l := hnm _ (by decide)
  have hdollar : '$' ∉ l := hnm _ (by decide)
  have hbrack : '[' ∉ l := hnm _ (by decide)
  have hlt : '<' ∉ l := hnm _ (by decide)
  have hdropnm : ∀ (c0 : Char) (n : Nat), c0 ∉ l → c0 ∉ l.drop n :=
    fun _ _ hn hm => hn (List.mem_of_mem_drop hm)
  have hdropcs : ∀ (t : List Char) (n : Nat), containsSeq t l = false →
      containsSeq t (l.drop n) = false := by
    intro t n ht
    cases hc : containsSeq t (l.drop n)
    · rfl
    · rw [containsSeq_of_drop hc] at ht; cases ht
  have hcsOf : ∀ (t : List Char) (c0 : Char), c0 ∈ t → c0 ∉ l →
      containsSeq t l = false := by
    intro t c0 hct hcl
    cases hc : containsSeq t l
    · rfl
    · exact absurd (containsSeq_mem hc c0 hct) hcl
  have s1 : scanStep tryAnsi l.length l = l :=
    scanStep_eq_self _ _ _ (fun n => tryAnsi_eq_none (hdropnm _ n hesc))
  have s2 : scanStep tryError l.length l = l :=
    scanStep_eq_self _ _ _ (fun n =>
      tryError_eq_none (hdropnm _ n hbrack) (hdropcs _ n hU))
  have s3 : scanStep tryYarn l.length l = l :=
    scanStep_eq_self _ _ _ (fun n => tryYarn_eq_none (hdropnm _ n hdollar))
  have s4 : replaceAllL yarnAndroidFrom yarnAndroidTo l = l :=
    scanStep_eq_self _ _ _ (fun n =>
      tryLit_eq_none (hdropcs _ n (hcsOf _ '`' (by decide) htick)))
  have s5 : replaceAllL "<scriptName> ...".data "your-script ...".data l = l :=
    scanStep_eq_self _ _ _ (fun n =>
      tryLit_eq_none (hdropcs _ n (hcsOf _ '<' (by decide) hlt)))
  have s6 : scanStep tryCollapse l.length l = l :=
    scanStep_eq_self _ _ _ (fun n => tryCollapse_eq_none (hdropcs _ n hN))
  have s7 : scanStep tryHeader l.length l = l :=
    scanStep_eq_self _ _ _ (fun n => tryHeader_eq_none (hdropnm _ n hhash))
  have s8 : scanStep tryBullet l.length l = l :=
    scanStep_eq_self _ _ _ (fun n =>
      tryBullet_eq_none (hdropnm _ n hdash) (hdropnm _ n hstar))
  have s9 : scanStep tryFenceBefore l.length l = l :=
    scanStep_eq_self _ _ _ (fun n => tryFenceBefore_eq_none (hdropnm _ n htick))
  have s10 : scanStep tryFenceAfter l.length l = l :=
    scanStep_eq_self _ _ _ (fun n => tryFenceAfter_eq_none (hdropnm _ n htick))
  simp only [Core.sanitizeL, Core.sanitizeTail, escapePass_eq_self hbs, s1, s2,
    s3, s4, s5, s6, s7, s8, s9, s10, dropDupHeader_eq_self hhash]

/-- C6 (counterexample): the sanitizer is not idempotent — on a text whose
two final lines both duplicate the `# ` title line, one application drops
one duplicate and a second application drops another, so
`Sanitize(Sanitize(x)) ≠ Sanitize(x)`. -/
theorem sanitize_not_idempotent :
    Core.sanitize_content (Core.sanitize_content "# T\na\n# T\n# T") ≠
      Core.sanitize_content "# T\na\n# T\n# T" := by decide

/-- C6 (amended): the sanitizer is idempotent on already-clean input — any
text free of its trigger patterns (no escape character, bracket, backslash,
hash, backtick, dash, star, dollar or angle trigger characters, no
`Usage Error` banner, no run of three newlines) is a fixed point of
`sanitize_content`, hence sanitizing twice equals sanitizing once. -/
theorem sanitize_idempotent_on_clean (s : String) (h : cleanInput s = true) :
    Core.sanitize_content s = s ∧
      Core.sanitize_content (Core.sanitize_content s) = Core.sanitize_content s := by
  have hd : Core.sanitizeL s.data = s.data := by
    simp only [cleanInput, Bool.and_eq_true, List.all_eq_true, Bool.not_eq_true'] at h
    exact sanitizeL_eq_self_of_clean h.1.1 h.1.2 h.2
  have hfix : Core.sanitize_content s = s := by
    unfold Core.sanitize_content
    rw [hd]
  exact ⟨hfix, by rw [hfix]; exact hfix⟩

/-- C6 (witness for the amended theorem): a concrete clean input is a fixed
point of the sanitizer and sanitizing it twice equals sanitizing it once. -/
theorem sanitize_idempotent_on_clean_witness :
    cleanInput "plain note text" = true ∧
      Core.sanitize_content "plain note text" = "plain note text" ∧
      Core.sanitize_content (Core.sanitize_content "plain note text") =
        Core.sanitize_content "plain note text" :=
  ⟨by decide, (sanitize_idempotent_on_clean "plain note text" (by decide)).1,
    (sanitize_idempotent_on_clean "plain note text" (by decide)).2⟩

/-- C8: upserting rule `x` with `v1` and then with `v2` into the (initially
absent, hence empty) shared rules document leaves exactly one `## x`
section, and parsing the document yields the single rule `x` with body
`v2`. -/
theorem rule_upsert_converges :
    countOcc "## x".data
        (Legacy.update_custom_rules
          (Legacy.update_custom_rules "" "v1" "x") "v2" "x").data = 1 ∧
      Legacy.get_custom_rules
          (Legacy.update_custom_rules
            (Legacy.update_custom_rules "" "v1" "x") "v2" "x") =
        [("x", "v2")] := by
  constructor
  · decide
  · decide

/-- C9: `UpsertRule` does not preserve the following section — the section
pattern's tail `(?:## |$)` consumes the next section's `## ` marker, so on
a document holding sections `x` then `y`, updating `x` erases `y`'s header
line (`## y` occurs once before the update and zero times after). -/
theorem rule_upsert_consumes_next_header :
    countOcc "## y".data ("## x\n\nv1\n\n## y\n\nstuff\n\n" : String).data = 1 ∧
      countOcc "## y".data
        (Legacy.update_custom_rules "## x\n\nv1\n\n## y\n\nstuff\n\n" "new" "x").data
        = 0 := by
  constructor
  · decide
  · decide

set_option maxRecDepth 4000 in
/-- C2 (counterexample): the runtime implementation
(`src/core/archives_manager.py`) never rotates — with a single existing
document of 600 lines (far above the configured default
`max_file_lines = 500`), `get_appropriate_archive_file` still returns the
existing document with `is_new_file = False` instead of designating a new
one. -/
theorem core_resolve_ignores_line_limit :
    (Core.get_appropriate_archive_file
        [⟨"frontend", "setup", "setup_001.md", 0,
          String.mk (List.replicate 600 '\n')⟩] "frontend" "setup" 1).2 = false ∧
      500 ≤ lineCount (String.mk (List.replicate 600 '\n')).data := by
  constructor
  · rfl
  · decide

theorem insertAscName_ne_nil (x : String × String) (l : List (String × String)) :
    insertAscName x l ≠ [] := by
  cases l with
  | nil => simp [insertAscName]
  | cons y ys =>
    simp only [insertAscName]
    split <;> simp

theorem sortByName_eq_nil_iff (dir : List (String × String)) :
    sortByName dir = [] ↔ dir = [] := by
  cases dir with
  | nil => simp [sortByName]
  | cons x rest =>
    simp only [sortByName, List.foldr_cons]
    constructor
    · intro h; exact absurd h (insertAscName_ne_nil _ _)
    · intro h; cases h

theorem foldl_latestStep_some (l : List ArchFile) :
    ∀ (g : ArchFile), l.foldl latestStep (some g) ≠ none := by
  induction l with
  | nil => intro g h; cases h
  | cons f rest ih =>
    intro g
    simp only [List.foldl_cons, latestStep]
    split <;> exact ih _

theorem latestByMtime_eq_none_iff (l : List ArchFile) :
    latestByMtime l = none ↔ l = [] := by
  cases l with
  | nil => simp [latestByMtime]
  | cons f rest =>
    simp only [latestByMtime, List.foldl_cons, latestStep]
    constructor
    · intro h; exact absurd h (foldl_latestStep_some rest f)
    · intro h; cases h

/-- C2 (amended): rotation by line count exists only in the legacy variant.
In `src/archives/core/archives_manager.py`, `get_appropriate_archive_file`
designates a new document exactly when no document exists or when the
lexicographically last (most recently created) document's line count is at
least `max_file_lines`.  In the runtime variant
(`src/core/archives_manager.py`), it designates a new document exactly when
no document exists for the section, returning the most-recently-modified
document otherwise, regardless of its line count. -/
theorem resolve_rotation_characterization :
    (∀ (maxLines : Nat) (dir : List (String × String)) (sec : String),
        (Legacy.get_appropriate_archive_file maxLines dir sec).2 = true ↔
          dir = [] ∨ ∃ name content,
            (sortByName dir).getLast? = some (name, content) ∧
              maxLines ≤ lineCount content.data) ∧
    (∀ (corpus : List ArchFile) (project sec : String) (now : Nat),
        (Core.get_appropriate_archive_file corpus project sec now).2 = true ↔
          sectionFiles corpus project sec = []) := by
  constructor
  · intro maxLines dir sec
    cases hl : (sortByName dir).getLast? with
    | none =>
      have hdir : dir = [] := by
        rcases List.getLast?_eq_none_iff.1 hl with hnil
        exact (sortByName_eq_nil_iff dir).1 hnil
      constructor
      · intro _; exact Or.inl hdir
      · intro _
        simp [Legacy.get_appropriate_archive_file, hl]
    | some nc =>
      obtain ⟨name, content⟩ := nc
      have hdir : dir ≠ [] := by
        intro h
        rw [(sortByName_eq_nil_iff dir).2 h] at hl
        cases hl
      by_cases hle : maxLines ≤ lineCount content.data
      · constructor
        · intro _; exact Or.inr ⟨name, content, rfl, hle⟩
        · intro _
          cases hp : parseSeqNum name <;>
            simp [Legacy.get_appropriate_archive_file, hl, hle, hp]
      · constructor
        · intro h
          exfalso
          simp [Legacy.get_appropriate_archive_file, hl, hle] at h
        · rintro (h | ⟨name2, content2, hl2, hle2⟩)
          · exact absurd h hdir
          · injection hl2 with hl3
            injection hl3 with hn hc
            rw [← hc] at hle2
            exact absurd hle2 hle
  · intro corpus project sec now
    cases hm : latestByMtime (sectionFiles corpus project sec) with
    | some g =>
      constructor
      · intro h
        simp [Core.get_appropriate_archive_file, hm] at h
      · intro h
        rw [(latestByMtime_eq_none_iff _).2 h] at hm
        cases hm
    | none =>
      constructor
      · intro _; exact (latestByMtime_eq_none_iff _).1 hm
      · intro _
        simp [Core.get_appropriate_archive_file, hm]

/-
Equivalence of the find-loop of `score_document` with the specification's
count of whole-word-bounded occurrence positions (claim C4).
-/

theorem findFromF_some {tok hay : List Char} :
    ∀ (fuel idx p : Nat), findFromF tok hay fuel idx = some p →
      idx ≤ p ∧ startsWithL tok (hay.drop p) = true ∧
        ∀ j, idx ≤ j → j < p → startsWithL tok (hay.drop j) = false := by
  intro fuel
  induction fuel with
  | zero => intro idx p h; cases h
  | succ fuel ih =>
    intro idx p h
    simp only [findFromF] at h
    by_cases hs : startsWithL tok (hay.drop idx) = true
    · rw [if_pos hs] at h
      injection h with h
      subst h
      exact ⟨Nat.le_refl _, hs, fun j hj1 hj2 => absurd hj1 (by omega)⟩
    · rw [if_neg hs] at h
      by_cases hlen : hay.length ≤ idx
      · rw [if_pos hlen] at h; cases h
      · rw [if_neg hlen] at h
        obtain ⟨h1, h2, h3⟩ := ih (idx + 1) p h
        refine ⟨by omega, h2, fun j hj1 hj2 => ?_⟩
        rcases Nat.eq_or_lt_of_le hj1 with rfl | hj
        · exact Bool.eq_false_iff.2 hs
        · exact h3 j hj hj2

theorem findFromF_none {tok hay : List Char} :
    ∀ (fuel idx : Nat), hay.length + 1 - idx ≤ fuel →
      findFromF tok hay fuel idx = none →
      ∀ j, idx ≤ j → j ≤ hay.length → startsWithL tok (hay.drop j) = false := by
  intro fuel
  induction fuel with
  | zero => intro idx hfuel _ j hj1 hj2; omega
  | succ fuel ih =>
    intro idx hfuel h j hj1 hj2
    simp only [findFromF] at h
    by_cases hs : startsWithL tok (hay.drop idx) = true
    · rw [if_pos hs] at h; cases h
    · rw [if_neg hs] at h
      by_cases hlen : hay.length ≤ idx
      · have : j = idx := by omega
        subst this
        exact Bool.eq_false_iff.2 hs
      · rw [if_neg hlen] at h
        rcases Nat.eq_or_lt_of_le hj1 with rfl | hj
        · exact Bool.eq_false_iff.2 hs
        · exact ih (idx + 1) (by omega) h j hj hj2

theorem findFromL_some {tok hay : List Char} {idx p : Nat}
    (h : findFromL tok hay idx = some p) :
    idx ≤ p ∧ startsWithL tok (hay.drop p) = true ∧
      ∀ j, idx ≤ j → j < p → startsWithL tok (hay.drop j) = false :=
  findFromF_some _ _ _ h

theorem findFromL_none {tok hay : List Char} {idx : Nat}
    (h : findFromL tok hay idx = none) :
    ∀ j, idx ≤ j → j ≤ hay.length → startsWithL tok (hay.drop j) = false :=
  findFromF_none _ _ (Nat.le_refl _) h

theorem findFromL_lt_of_lt {tok hay : List Char} {idx p : Nat}
    (hlt : idx < hay.length) (h : findFromL tok hay idx = some p) :
    p < hay.length := by
  obtain ⟨h1, h2, h3⟩ := findFromL_some h
  cases tok with
  | nil =>
    by_contra hge
    have := h3 idx (Nat.le_refl _) (by omega)
    simp [startsWithL] at this
  | cons c tok2 =>
    by_contra hge
    rw [List.drop_eq_nil_of_le (by omega)] at h2
    simp [startsWithL] at h2

theorem scoreTokLoop_fst (tok hay : List Char) :
    ∀ (fuel idx : Nat), hay.length - idx < fuel →
      (scoreTokLoop tok hay fuel idx).1 =
        (List.range' idx (hay.length - idx)).countP (specWordHitAt tok hay) := by
  intro fuel
  induction fuel with
  | zero => intro idx h; omega
  | succ fuel ih =>
    intro idx hfuel
    by_cases hidx : hay.length ≤ idx
    · have h0 : hay.length - idx = 0 := by omega
      simp [scoreTokLoop, hidx, h0]
    · have hidx2 : idx < hay.length := by omega
      cases hf : findFromL tok hay idx with
      | none =>
        have hz : (List.range' idx (hay.length - idx)).countP
            (specWordHitAt tok hay) = 0 := by
          refine List.countP_eq_zero.2 (fun p hp => ?_)
          obtain ⟨hp1, hp2⟩ := List.mem_range'_1.1 hp
          have hsw := findFromL_none hf p hp1 (by omega)
          simp [specWordHitAt, hsw]
        simp [scoreTokLoop, hidx, hf, hz]
      | some p =>
        obtain ⟨hp1, hp2, hp3⟩ := findFromL_some hf
        have hplen : p < hay.length := findFromL_lt_of_lt hidx2 hf
        have hloop : (scoreTokLoop tok hay (fuel + 1) idx).1 =
            (if boundaryOk tok hay p then 1 else 0) +
              (scoreTokLoop tok hay fuel (p + 1)).1 := by
          simp only [scoreTokLoop, if_neg hidx, hf]
          split <;> simp [Nat.add_comm]
        have hsplit : List.range' idx (hay.length - idx) =
            List.range' idx (p - idx) ++
              p :: List.range' (p + 1) (hay.length - (p + 1)) := by
          have e1 := List.range'_append idx (p - idx) (hay.length - p) 1
          rw [show idx + 1 * (p - idx) = p by omega] at e1
          rw [show (hay.length - p) + (p - idx) = hay.length - idx by omega] at e1
          rw [← e1]
          congr 1
          rw [show hay.length - p = (hay.length - (p + 1)) + 1 by omega,
            List.range'_succ]
        rw [hloop, ih (p + 1) (by omega), hsplit, List.countP_append,
          List.countP_cons]
        have hz : (List.range' idx (p - idx)).countP (specWordHitAt tok hay) = 0 := by
          refine List.countP_eq_zero.2 (fun j hj => ?_)
          obtain ⟨hj1, hj2⟩ := List.mem_range'_1.1 hj
          have hswj := hp3 j hj1 (by omega)
          simp [specWordHitAt, hswj]
        have hpp : specWordHitAt tok hay p = boundaryOk tok hay p := by
          simp [specWordHitAt, hp2]
        rw [hz, hpp]
        cases boundaryOk tok hay p
        · simp
        · simp
          omega

theorem scoreTokLoop_eq_specCount (tok content : List Char) (fuel : Nat)
    (hf : (content.map pyToLower).length < fuel) :
    (scoreTokLoop tok (content.map pyToLower) fuel 0).1 =
      specWholeWordCount tok content := by
  have h := scoreTokLoop_fst tok (content.map pyToLower) fuel 0 (by omega)
  rw [h, specWholeWordCount, List.range_eq_range']
  simp

/-- C4: the score `score_document` assigns a document equals the
specification's count — the total number of whole-word-bounded occurrence
positions of the query tokens (each token's occurrences counted
separately, repeated tokens included); an occurrence inside a longer word
fails the boundary check and contributes nothing. -/
theorem score_document_whole_word (queryTokens : List (List Char))
    (content : List Char) :
    (score_document queryTokens content).1 =
      (queryTokens.map (fun t => specWholeWordCount t content)).sum := by
  suffices h : ∀ (acc : Nat × List Nat),
      (queryTokens.foldl (fun acc t =>
        let r := scoreTokLoop t (content.map pyToLower)
          ((content.map pyToLower).length + 1) 0
        (acc.1 + r.1, acc.2 ++ r.2)) acc).1 =
        acc.1 + (queryTokens.map (fun t => specWholeWordCount t content)).sum by
    have := h (0, [])
    simpa [score_document] using this
  induction queryTokens with
  | nil => intro acc; simp
  | cons t rest ih =>
    intro acc
    simp only [List.foldl_cons, List.map_cons, List.sum_cons]
    rw [ih]
    rw [scoreTokLoop_eq_specCount t content ((content.map pyToLower).length + 1)
      (by omega)]
    omega

/-
Sortedness of the token-phase ranking (claim C5).
-/

theorem hitKeyLt_asymm {a b : TokenHit} (h : hitKeyLt a b = true) :
    hitKeyLt b a = false := by
  simp only [hitKeyLt, Bool.or_eq_true, Bool.and_eq_true, decide_eq_true_eq,
    beq_iff_eq] at h
  simp only [hitKeyLt, Bool.or_eq_false_iff, Bool.and_eq_false_iff,
    decide_eq_false_iff_not, Nat.not_lt, beq_eq_false_iff_ne, ne_eq]
  omega

theorem hitKeyLt_false_trans {a b c : TokenHit} (h1 : hitKeyLt a b = false)
    (h2 : hitKeyLt b c = false) : hitKeyLt a c = false := by
  simp only [hitKeyLt, Bool.or_eq_false_iff, Bool.and_eq_false_iff,
    decide_eq_false_iff_not, Nat.not_lt, beq_eq_false_iff_ne, ne_eq] at h1 h2 ⊢
  omega

theorem mem_insertDesc {x z : TokenHit} {l : List TokenHit} :
    z ∈ insertDesc x l ↔ z = x ∨ z ∈ l := by
  induction l with
  | nil => simp [insertDesc]
  | cons y ys ih =>
    simp only [insertDesc]
    split
    · simp only [List.mem_cons, ih]
      tauto
    · simp only [List.mem_cons]

theorem pairwise_insertDesc {x : TokenHit} {l : List TokenHit}
    (h : l.Pairwise (fun a b => hitKeyLt a b = false)) :
    (insertDesc x l).Pairwise (fun a b => hitKeyLt a b = false) := by
  induction l with
  | nil => simp [insertDesc]
  | cons y ys ih =>
    rcases List.pairwise_cons.1 h with ⟨hy, hys⟩
    simp only [insertDesc]
    split
    · rename_i hlt
      refine List.pairwise_cons.2 ⟨fun z hz => ?_, ih hys⟩
      rcases mem_insertDesc.1 hz with rfl | hz
      · exact hitKeyLt_asymm hlt
      · exact hy z hz
    · rename_i hnlt
      have hxy : hitKeyLt x y = false := by
        cases hv : hitKeyLt x y
        · rfl
        · exact absurd hv hnlt
      refine List.pairwise_cons.2 ⟨fun z hz => ?_, h⟩
      rcases List.mem_cons.1 hz with rfl | hz
      · exact hxy
      · exact hitKeyLt_false_trans hxy (hy z hz)

theorem pairwise_sortByScoreDesc (l : List TokenHit) :
    (sortByScoreDesc l).Pairwise (fun a b => hitKeyLt a b = false) := by
  induction l with
  | nil => simp [sortByScoreDesc]
  | cons x xs ih =>
    simp only [sortByScoreDesc, List.foldr_cons]
    exact pairwise_insertDesc ih

theorem hitKeyLt_eq_false_iff (a b : TokenHit) :
    hitKeyLt a b = false ↔
      b.score < a.score ∨ (b.score = a.score ∧ b.matched_tokens ≤ a.matched_tokens) := by
  simp only [hitKeyLt, Bool.or_eq_false_iff, Bool.and_eq_false_iff,
    decide_eq_false_iff_not, Nat.not_lt, beq_eq_false_iff_ne, ne_eq]
  omega

/-- C5: the token-overlap phase returns its results sorted in descending
lexicographic order of `(score, matched_tokens)`: whenever one result
appears before another, the earlier one has a strictly higher score, or an
equal score and at least as many matched tokens. -/
theorem token_results_sorted (q : String) (pf : Option String) (cfg : Config)
    (corpus : List ArchFile) :
    (Core.token_search q pf cfg corpus).Pairwise (fun a b =>
      b.score < a.score ∨
        (b.score = a.score ∧ b.matched_tokens ≤ a.matched_tokens)) := by
  have h : ∀ (l : List TokenHit), (sortByScoreDesc l).Pairwise (fun a b =>
      b.score < a.score ∨
        (b.score = a.score ∧ b.matched_tokens ≤ a.matched_tokens)) := by
    intro l
    exact (pairwise_sortByScoreDesc l).imp (fun hab => (hitKeyLt_eq_false_iff _ _).1 hab)
  simp only [Core.token_search]
  split
  · exact List.Pairwise.nil
  · exact h _

/-
Exact-phase membership and the two-phase dispatch (claims C1, C3, C10).
-/

theorem exact_mem {q : String} {pf : Option String} {cfg : Config}
    {corpus : List ArchFile} {f : ArchFile} (hf : f ∈ inScope pf cfg corpus)
    (hc : containsSeq (lowerL q.data) (lowerL f.content.data) = true) :
    mkExact q f ∈ Core.exact_match_search q pf cfg corpus :=
  List.mem_filterMap.2 ⟨f, hf, by rw [if_pos hc]⟩

/-- C3: whenever some in-scope document contains the query as a
case-insensitive substring, `search_archives` returns exactly the
exact-phrase phase's results (which are non-empty, so the token-overlap
phase is never consulted and contributes nothing). -/
theorem exact_phase_shortcircuit (q : String) (pf : Option String) (cfg : Config)
    (corpus : List ArchFile)
    (h : ∃ f ∈ inScope pf cfg corpus,
      containsSeq (lowerL q.data) (lowerL f.content.data) = true) :
    Core.search_archives q pf cfg corpus = Core.exact_match_search q pf cfg corpus ∧
      Core.exact_match_search q pf cfg corpus ≠ [] := by
  obtain ⟨f, hf, hc⟩ := h
  have hne : Core.exact_match_search q pf cfg corpus ≠ [] :=
    List.ne_nil_of_mem (exact_mem hf hc)
  have hee : (Core.exact_match_search q pf cfg corpus).isEmpty = false :=
    List.isEmpty_eq_false.2 hne
  exact ⟨by simp [Core.search_archives, hee], hne⟩

/-- C3 (witness): a concrete corpus where a document contains the query,
so the search result is the exact phase's non-empty result list. -/
theorem exact_phase_shortcircuit_witness :
    (∃ f ∈ inScope none ⟨["frontend"]⟩
        [⟨"frontend", "setup", "a.md", 0, "use npm install here"⟩],
      containsSeq (lowerL "npm".data) (lowerL f.content.data) = true) ∧
      Core.search_archives "npm" none ⟨["frontend"]⟩
          [⟨"frontend", "setup", "a.md", 0, "use npm install here"⟩] =
        Core.exact_match_search "npm" none ⟨["frontend"]⟩
          [⟨"frontend", "setup", "a.md", 0, "use npm install here"⟩] ∧
      Core.exact_match_search "npm" none ⟨["frontend"]⟩
          [⟨"frontend", "setup", "a.md", 0, "use npm install here"⟩] ≠ [] :=
  ⟨by decide,
    (exact_phase_shortcircuit "npm" none ⟨["frontend"]⟩
      [⟨"frontend", "setup", "a.md", 0, "use npm install here"⟩] (by decide)).1,
    (exact_phase_shortcircuit "npm" none ⟨["frontend"]⟩
      [⟨"frontend", "setup", "a.md", 0, "use npm install here"⟩] (by decide)).2⟩

theorem filterMap_if_all {α β : Type} (l : List α) (p : α → Bool) (g : α → β)
    (h : ∀ a ∈ l, p a = true) :
    (l.filterMap (fun a => if p a then some (g a) else none)) = l.map g := by
  induction l with
  | nil => rfl
  | cons a rest ih =>
    rw [List.filterMap_cons, if_pos (h a (List.mem_cons_self _ _)), List.map_cons]
    rw [ih (fun b hb => h b (List.mem_cons_of_mem _ hb))]

/-- C10: the empty query is a substring of every document, so over a
non-empty in-scope corpus `Search("")` returns the exact phase's results —
one result per in-scope document, never the empty list — and the
token-overlap phase is not reached. -/
theorem empty_query_returns_all (pf : Option String) (cfg : Config)
    (corpus : List ArchFile) (h : inScope pf cfg corpus ≠ []) :
    Core.search_archives "" pf cfg corpus =
        Core.exact_match_search "" pf cfg corpus ∧
      (Core.search_archives "" pf cfg corpus).length =
        (inScope pf cfg corpus).length := by
  have hall : ∀ f ∈ inScope pf cfg corpus,
      containsSeq (lowerL ("" : String).data) (lowerL f.content.data) = true :=
    fun f _ => containsSeq_nil_needle _
  have hmap : Core.exact_match_search "" pf cfg corpus =
      (inScope pf cfg corpus).map (mkExact "") :=
    filterMap_if_all _ _ _ hall
  have hlen : (Core.exact_match_search "" pf cfg corpus).length =
      (inScope pf cfg corpus).length := by
    rw [hmap, List.length_map]
  have hne : Core.exact_match_search "" pf cfg corpus ≠ [] := by
    intro h0
    rw [h0] at hlen
    exact h (List.length_eq_zero.1 hlen.symm)
  have hee : (Core.exact_match_search "" pf cfg corpus).isEmpty = false :=
    List.isEmpty_eq_false.2 hne
  have heq : Core.search_archives "" pf cfg corpus =
      Core.exact_match_search "" pf cfg corpus := by
    simp [Core.search_archives, hee]
  exact ⟨heq, by rw [heq, hlen]⟩

/-- C10 (witness): over a concrete two-document corpus the empty query
returns the exact phase's results, one per document. -/
theorem empty_query_returns_all_witness :
    inScope none ⟨["p"]⟩
        [⟨"p", "s", "a.md", 0, "hello"⟩, ⟨"p", "s", "b.md", 0, "world"⟩] ≠ [] ∧
      Core.search_archives "" none ⟨["p"]⟩
          [⟨"p", "s", "a.md", 0, "hello"⟩, ⟨"p", "s", "b.md", 0, "world"⟩] =
        Core.exact_match_search "" none ⟨["p"]⟩
          [⟨"p", "s", "a.md", 0, "hello"⟩, ⟨"p", "s", "b.md", 0, "world"⟩] ∧
      (Core.search_archives "" none ⟨["p"]⟩
          [⟨"p", "s", "a.md", 0, "hello"⟩, ⟨"p", "s", "b.md", 0, "world"⟩]).length =
        (inScope none ⟨["p"]⟩
          [⟨"p", "s", "a.md", 0, "hello"⟩, ⟨"p", "s", "b.md", 0, "world"⟩]).length :=
  ⟨by decide,
    (empty_query_returns_all none ⟨["p"]⟩
      [⟨"p", "s", "a.md", 0, "hello"⟩, ⟨"p", "s", "b.md", 0, "world"⟩] (by decide)).1,
    (empty_query_returns_all none ⟨["p"]⟩
      [⟨"p", "s", "a.md", 0, "hello"⟩, ⟨"p", "s", "b.md", 0, "world"⟩] (by decide)).2⟩

theorem foldl_latestStep_mem :
    ∀ (l : List ArchFile) (acc : Option ArchFile) (g : ArchFile),
      l.foldl latestStep acc = some g → acc = some g ∨ g ∈ l := by
  intro l
  induction l with
  | nil => intro acc g h; exact Or.inl h
  | cons f rest ih =>
    intro acc g h
    rcases ih (latestStep acc f) g h with hstep | hmem
    · cases acc with
      | none =>
        simp only [latestStep] at hstep
        injection hstep with h2
        exact Or.inr (h2 ▸ List.mem_cons_self _ _)
      | some g0 =>
        simp only [latestStep] at hstep
        split at hstep
        · injection hstep with h2
          exact Or.inr (h2 ▸ List.mem_cons_self _ _)
        · exact Or.inl hstep
    · exact Or.inr (List.mem_cons_of_mem _ hmem)

theorem latestByMtime_mem {l : List ArchFile} {g : ArchFile}
    (h : latestByMtime l = some g) : g ∈ l := by
  rcases foldl_latestStep_mem l none g h with h0 | hmem
  · cases h0
  · exact hmem

theorem mem_update_map (corpus : List ArchFile) (g : ArchFile) (hg : g ∈ corpus)
    (W : String) (now : Nat) :
    ∃ F ∈ corpus.map (fun h =>
        if pathOf h == pathOf g then { h with content := W, mtime := now } else h),
      pathOf F = pathOf g ∧ F.content = W ∧ F.project = g.project := by
  refine ⟨{g with content := W, mtime := now}, ?_, rfl, rfl, rfl⟩
  refine List.mem_map.2 ⟨g, hg, ?_⟩
  rw [if_pos (beq_self_eq_true _)]

theorem add_target_mem (corpus : List ArchFile)
    (project sectionName content : String) (title : Option String) (now : Nat) :
    ∃ F ∈ (Core.add_to_archives corpus project sectionName content title now).state,
      pathOf F = (Core.add_to_archives corpus project sectionName content title now).file ∧
        F.content =
          (Core.add_to_archives corpus project sectionName content title now).written ∧
        F.project = project := by
  cases hm : latestByMtime (sectionFiles corpus project sectionName) with
  | none =>
    simp only [Core.add_to_archives, hm]
    exact ⟨_, List.mem_append_right _ (List.mem_cons_self _ _), rfl, rfl, rfl⟩
  | some g =>
    have hg : g ∈ sectionFiles corpus project sectionName := latestByMtime_mem hm
    obtain ⟨hgc, hcond⟩ := List.mem_filter.1 hg
    rw [Bool.and_eq_true] at hcond
    obtain ⟨hproj, hsec⟩ := hcond
    simp only [Core.add_to_archives, hm]
    obtain ⟨F, hFmem, hFpath, hFcontent, hFproj⟩ := mem_update_map corpus g hgc _ now
    exact ⟨F, hFmem, hFpath, hFcontent, by rw [hFproj]; exact eq_of_beq hproj⟩

/-- C1: round trip — after `Add(project, section, content, title)` writes
its text to the returned document path, any `Search(q, pf)` whose scope
contains the project and whose query `q` is a substring of the stored
document text returns at least one result whose file path equals the path
`Add` returned. -/
theorem add_search_roundtrip (cfg : Config) (corpus : List ArchFile)
    (project sectionName content q : String) (title : Option String) (now : Nat)
    (pf : Option String) (hscope : project ∈ scopeProjects pf cfg)
    (hq : containsSeq q.data
      (Core.add_to_archives corpus project sectionName content title now).written.data =
      true) :
    ∃ r ∈ Core.search_archives q pf cfg
        (Core.add_to_archives corpus project sectionName content title now).state,
      r.file = (Core.add_to_archives corpus project sectionName content title now).file := by
  obtain ⟨F, hFmem, hFpath, hFcontent, hFproj⟩ :=
    add_target_mem corpus project sectionName content title now
  have hFscope : F ∈ inScope pf cfg
      (Core.add_to_archives corpus project sectionName content title now).state := by
    refine List.mem_filter.2 ⟨hFmem, ?_⟩
    rw [hFproj]
    exact decide_eq_true hscope
  have hcontains : containsSeq (lowerL q.data) (lowerL F.content.data) = true := by
    rw [hFcontent]
    exact containsSeq_map pyToLower hq
  have hmem2 := exact_mem hFscope hcontains
  have hee := List.isEmpty_eq_false.2 (List.ne_nil_of_mem hmem2)
  refine ⟨mkExact q F, ?_, hFpath⟩
  simp only [Core.search_archives, hee, Bool.false_eq_true, if_false]
  exact hmem2

/-- C1 (witness): the spec's example scenario —
`Add("frontend", "setup", "Install deps with npm install", title="Setup")`
followed by `Search("npm install")` returns a result whose file path is the
document `Add` returned. -/
theorem add_search_roundtrip_witness :
    ∃ r ∈ Core.search_archives "npm install" (some "frontend") ⟨["frontend"]⟩
        (Core.add_to_archives [] "frontend" "setup"
          "Install deps with npm install" (some "Setup") 0).state,
      r.file = (Core.add_to_archives [] "frontend" "setup"
        "Install deps with npm install" (some "Setup") 0).file :=
  add_search_roundtrip ⟨["frontend"]⟩ [] "frontend" "setup"
    "Install deps with npm install" "npm install" (some "Setup") 0
    (some "frontend") (by decide) (by decide)
